import Mathlib

/-!
Verification of the shortwave transport layer.

This file gives a shallow embedding of the core of the `shortwave`
repository (`shortwave/transmission.py` and `shortwave/transmission/base.py`)
and proves or refutes the specified properties of the framing layer
(`Protocol.on_receive`), the reactor drain loop (`EventPollReceiver.run`),
the detach path (`Receiver.detach` / `EventPollReceiver.detach`), the
write-half shutdown (`Transmitter.finish`) and the transceiver lifecycle
(`BaseTransceiver.stop_tx` / `stop_rx` / `close`).

Bytes are modelled as `Nat` (their numeric value is never used), byte
strings as `List Nat`.
-/

namespace Shortwave

/-- Tagged model of the ad hoc polymorphic `Protocol.limit` attribute:
`None`, a Python integer, a byte string, or anything else
(`transmission.py`, class `Protocol`). -/
inductive Limit where
  | none
  | int (n : Int)
  | bytes (d : List Nat)
  | other
deriving DecidableEq

/-- Python slice `l[:n]` for an arbitrary (possibly negative) integer `n`. -/
def pytake (n : Int) (l : List Nat) : List Nat :=
  if 0 ≤ n then l.take n.toNat else l.take (l.length - (-n).toNat)

/-- Python `del l[:n]` for an arbitrary (possibly negative) integer `n`:
the remaining suffix. -/
def pydrop (n : Int) (l : List Nat) : List Nat :=
  if 0 ≤ n then l.drop n.toNat else l.drop (l.length - (-n).toNat)

/-- Python `s.find(d)` on byte strings: index of the first occurrence of
`d` in `s`, or `none` for `-1`.  As in Python, the empty pattern is found
at index 0 (models `buffer.find(limit)` in `Protocol.on_receive`). -/
def bfind (d : List Nat) : List Nat → Option Nat
  | [] => if d.isPrefixOf ([] : List Nat) then some 0 else Option.none
  | x :: t =>
    if d.isPrefixOf (x :: t) then some 0
    else (bfind d t).map (fun i => i + 1)

/-- Faithful translation of the `while buffer:` frame-extraction loop of
`Protocol.on_receive` (`transmission.py` lines 195-213), indexed by fuel.
The returned list is the sequence of arguments passed to `on_data`, in
order, paired with the final accumulation buffer; `Except.error` models
the `raise TypeError` branch; `Option.none` means the fuel was exhausted
before the loop finished (used to reason about non-termination). -/
def onReceiveLoop (limit : Limit) : Nat → List Nat → Option (Except String (List (List Nat) × List Nat))
  | 0, _ => Option.none
  | fuel + 1, buffer =>
    if buffer = [] then some (Except.ok ([], buffer))
    else
      match limit with
      | Limit.none =>
        match onReceiveLoop limit fuel [] with
        | Option.none => Option.none
        | some (Except.error e) => some (Except.error e)
        | some (Except.ok (fs, b)) => some (Except.ok (buffer :: fs, b))
      | Limit.int n =>
        if (buffer.length : Int) < n then some (Except.ok ([], buffer))
        else
          match onReceiveLoop limit fuel (pydrop n buffer) with
          | Option.none => Option.none
          | some (Except.error e) => some (Except.error e)
          | some (Except.ok (fs, b)) => some (Except.ok (pytake n buffer :: fs, b))
      | Limit.bytes d =>
        match bfind d buffer with
        | Option.none => some (Except.ok ([], buffer))
        | some i =>
          match onReceiveLoop limit fuel (buffer.drop (i + d.length)) with
          | Option.none => Option.none
          | some (Except.error e) => some (Except.error e)
          | some (Except.ok (fs, b)) => some (Except.ok (buffer.take i :: fs, b))
      | Limit.other => some (Except.error "Unsupported limiter")

/-- `Protocol.on_receive(view)`: append the delivered view to the
accumulation buffer, then run the extraction loop
(`transmission.py` lines 192-213). -/
def on_receive (limit : Limit) (buffer view : List Nat) (fuel : Nat) :
    Option (Except String (List (List Nat) × List Nat)) :=
  onReceiveLoop limit fuel (buffer ++ view)

/-- `Protocol.__init__` (`transmission.py` lines 188-190): creates the
empty accumulation buffer.  It performs no validation of the configured
limiter, so configuration never fails, whatever the limiter is. -/
def protocolInit (_limit : Limit) : Except String (List Nat) :=
  Except.ok []

/-- Feed a sequence of delivered views to `on_receive` in order, starting
from the given accumulation buffer, collecting all frames passed to
`on_data`.  Each call gets fuel `(buffer ++ view).length + 1`, which is
shown sufficient for every valid limiter. -/
def feedChunks (limit : Limit) : List (List Nat) → List Nat → Option (Except String (List (List Nat) × List Nat))
  | [], buffer => some (Except.ok ([], buffer))
  | view :: rest, buffer =>
    match on_receive limit buffer view ((buffer ++ view).length + 1) with
    | Option.none => Option.none
    | some (Except.error e) => some (Except.error e)
    | some (Except.ok (fs, buf2)) =>
      match feedChunks limit rest buf2 with
      | Option.none => Option.none
      | some (Except.error e) => some (Except.error e)
      | some (Except.ok (fs2, buf3)) => some (Except.ok (fs ++ fs2, buf3))

/-- The three supported limiter configurations: deliver-all, fixed-length
with a strictly positive size, delimiter with a non-empty byte string. -/
def ValidLimit : Limit → Prop
  | Limit.none => True
  | Limit.int n => 0 < n
  | Limit.bytes d => d ≠ []
  | Limit.other => False

instance : DecidablePred ValidLimit := fun limit =>
  match limit with
  | Limit.none => Decidable.isTrue trivial
  | Limit.int n => inferInstanceAs (Decidable (0 < n))
  | Limit.bytes d => inferInstanceAs (Decidable (d ≠ []))
  | Limit.other => Decidable.isFalse (fun h => h)

/-! ## Fixed-length extraction -/

/-- Total description of what the `Limit.int n` branch of the extraction
loop computes for `0 < n`: greedily split off leading blocks of `n`
bytes while at least `n` bytes remain.  Shown below to agree with
`onReceiveLoop` whenever enough fuel is supplied. -/
def extractFixed (n : Nat) (buf : List Nat) : List (List Nat) × List Nat :=
  if h : 0 < n ∧ n ≤ buf.length then
    let r := extractFixed n (buf.drop n)
    (buf.take n :: r.1, r.2)
  else ([], buf)
termination_by buf.length
decreasing_by simp only [List.length_drop]; omega

theorem extractFixed_of_lt (n : Nat) (buf : List Nat) (h : buf.length < n) :
    extractFixed n buf = ([], buf) := by
  rw [extractFixed]
  simp only [dif_neg (by omega : ¬(0 < n ∧ n ≤ buf.length))]

theorem extractFixed_of_le (n : Nat) (buf : List Nat) (h0 : 0 < n)
    (h : n ≤ buf.length) :
    extractFixed n buf =
      (buf.take n :: (extractFixed n (buf.drop n)).1, (extractFixed n (buf.drop n)).2) := by
  rw [extractFixed]
  simp only [dif_pos (And.intro h0 h)]

theorem extractFixed_flatten (n : Nat) (h0 : 0 < n) :
    ∀ buf : List Nat, (extractFixed n buf).1.flatten ++ (extractFixed n buf).2 = buf := by
  suffices H : ∀ len, ∀ buf : List Nat, buf.length = len →
      (extractFixed n buf).1.flatten ++ (extractFixed n buf).2 = buf by
    exact fun buf => H buf.length buf rfl
  intro len
  induction len using Nat.strong_induction_on with
  | _ len ih =>
    intro buf hl
    by_cases h : n ≤ buf.length
    · rw [extractFixed_of_le n buf h0 h]
      have hdrop : (buf.drop n).length < len := by
        simp only [List.length_drop]; omega
      have := ih (buf.drop n).length (by omega) (buf.drop n) rfl
      simp only [List.flatten_cons, List.append_assoc, this, List.take_append_drop]
    · rw [extractFixed_of_lt n buf (by omega)]
      simp

theorem extractFixed_frames_length (n : Nat) (h0 : 0 < n) :
    ∀ buf : List Nat, ∀ f ∈ (extractFixed n buf).1, f.length = n := by
  suffices H : ∀ len, ∀ buf : List Nat, buf.length = len →
      ∀ f ∈ (extractFixed n buf).1, f.length = n by
    exact fun buf => H buf.length buf rfl
  intro len
  induction len using Nat.strong_induction_on with
  | _ len ih =>
    intro buf hl
    by_cases h : n ≤ buf.length
    · rw [extractFixed_of_le n buf h0 h]
      intro f hf
      rcases List.mem_cons.mp hf with hf | hf
      · subst hf; simp only [List.length_take]; omega
      · have hdrop : (buf.drop n).length < len := by
          simp only [List.length_drop]; omega
        exact ih (buf.drop n).length (by omega) (buf.drop n) rfl f hf
    · rw [extractFixed_of_lt n buf (by omega)]
      intro f hf; simp at hf

theorem extractFixed_rest_lt (n : Nat) (h0 : 0 < n) :
    ∀ buf : List Nat, (extractFixed n buf).2.length < n := by
  suffices H : ∀ len, ∀ buf : List Nat, buf.length = len →
      (extractFixed n buf).2.length < n by
    exact fun buf => H buf.length buf rfl
  intro len
  induction len using Nat.strong_induction_on with
  | _ len ih =>
    intro buf hl
    by_cases h : n ≤ buf.length
    · rw [extractFixed_of_le n buf h0 h]
      have hdrop : (buf.drop n).length < len := by
        simp only [List.length_drop]; omega
      exact ih (buf.drop n).length (by omega) (buf.drop n) rfl
    · rw [extractFixed_of_lt n buf (by omega)]
      simp only
      omega

theorem extractFixed_append (n : Nat) (h0 : 0 < n) :
    ∀ l m : List Nat,
      extractFixed n (l ++ m) =
        ((extractFixed n l).1 ++ (extractFixed n ((extractFixed n l).2 ++ m)).1,
          (extractFixed n ((extractFixed n l).2 ++ m)).2) := by
  suffices H : ∀ len, ∀ l : List Nat, l.length = len → ∀ m : List Nat,
      extractFixed n (l ++ m) =
        ((extractFixed n l).1 ++ (extractFixed n ((extractFixed n l).2 ++ m)).1,
          (extractFixed n ((extractFixed n l).2 ++ m)).2) by
    exact fun l => H l.length l rfl
  intro len
  induction len using Nat.strong_induction_on with
  | _ len ih =>
    intro l hl m
    by_cases h : n ≤ l.length
    · have hlen : n ≤ (l ++ m).length := by
        simp only [List.length_append]; omega
      have htake : (l ++ m).take n = l.take n := by
        rw [List.take_append_eq_append_take]
        simp [Nat.sub_eq_zero_of_le h]
      have hdropapp : (l ++ m).drop n = l.drop n ++ m := by
        rw [List.drop_append_eq_append_drop]
        simp [Nat.sub_eq_zero_of_le h]
      rw [extractFixed_of_le n (l ++ m) h0 hlen, extractFixed_of_le n l h0 h,
          htake, hdropapp]
      have hdrop : (l.drop n).length < len := by
        simp only [List.length_drop]; omega
      rw [ih (l.drop n).length (by omega) (l.drop n) rfl m]
      simp
    · rw [extractFixed_of_lt n l (by omega)]
      simp

theorem pytake_natCast (n : Nat) (l : List Nat) : pytake (n : Int) l = l.take n := by
  simp [pytake]

theorem pydrop_natCast (n : Nat) (l : List Nat) : pydrop (n : Int) l = l.drop n := by
  simp [pydrop]

/-- With fuel exceeding the buffer length, the extraction loop for a
fixed-length limiter `N > 0` terminates and computes `extractFixed`. -/
theorem onReceiveLoop_int (n : Nat) (h0 : 0 < n) :
    ∀ fuel buf, buf.length < fuel →
      onReceiveLoop (Limit.int (n : Int)) fuel buf =
        some (Except.ok (extractFixed n buf)) := by
  intro fuel
  induction fuel with
  | zero => intro buf h; omega
  | succ fuel ih =>
    intro buf h
    by_cases hb : buf = []
    · subst hb
      rw [extractFixed_of_lt n [] (by simpa using h0)]
      simp [onReceiveLoop]
    · by_cases hlt : buf.length < n
      · rw [extractFixed_of_lt n buf hlt]
        simp only [onReceiveLoop, if_neg hb]
        rw [if_pos (by exact_mod_cast hlt)]
      · have hle : n ≤ buf.length := by omega
        have hrec : (pydrop (n : Int) buf).length < fuel := by
          rw [pydrop_natCast]
          simp only [List.length_drop]
          omega
        simp only [onReceiveLoop, if_neg hb]
        rw [if_neg (by exact_mod_cast not_lt.mpr hle)]
        rw [ih (pydrop (n : Int) buf) hrec]
        rw [extractFixed_of_le n buf h0 hle, pytake_natCast, pydrop_natCast]

/-- Feeding chunks one at a time to a fixed-length(N) protocol computes
exactly the batch extraction over the concatenated stream, provided the
starting buffer is a proper remainder (shorter than N). -/
theorem feedChunks_int (n : Nat) (h0 : 0 < n) :
    ∀ (chunks : List (List Nat)) (buf : List Nat), buf.length < n →
      feedChunks (Limit.int (n : Int)) chunks buf =
        some (Except.ok (extractFixed n (buf ++ chunks.flatten))) := by
  intro chunks
  induction chunks with
  | nil =>
    intro buf hbuf
    rw [feedChunks]
    rw [show buf ++ ([] : List (List Nat)).flatten = buf by simp]
    rw [extractFixed_of_lt n buf hbuf]
  | cons c rest ih =>
    intro buf hbuf
    rw [feedChunks]
    rw [show on_receive (Limit.int (n : Int)) buf c ((buf ++ c).length + 1) =
          some (Except.ok (extractFixed n (buf ++ c))) from
        onReceiveLoop_int n h0 _ _ (by omega)]
    have hrest := extractFixed_rest_lt n h0 (buf ++ c)
    have happ := extractFixed_append n h0 (buf ++ c) rest.flatten
    rcases hE : extractFixed n (buf ++ c) with ⟨fs1, r1⟩
    rw [hE] at hrest happ
    simp only
    rw [ih r1 hrest]
    rw [show buf ++ (c :: rest).flatten = (buf ++ c) ++ rest.flatten by simp]
    rw [happ]

theorem flatten_length_of_uniform (n : Nat) :
    ∀ fs : List (List Nat), (∀ f ∈ fs, f.length = n) →
      fs.flatten.length = n * fs.length := by
  intro fs
  induction fs with
  | nil => intro _; simp
  | cons f rest ih =>
    intro h
    have hf : f.length = n := h f (List.mem_cons_self f rest)
    have := ih (fun g hg => h g (List.mem_cons_of_mem f hg))
    simp only [List.flatten_cons, List.length_append, this, hf, List.length_cons]
    ring

/-- C2: for every N > 0 and every partition of a byte stream into chunks,
feeding the chunks in order to a fixed-length(N) protocol starting from
the empty accumulation buffer delivers, via `on_data`, exactly
`total / N` frames of exactly N bytes each, in stream order (the frames
concatenated with the final buffer reconstruct the stream), and the
final accumulation buffer holds exactly the last `total % N` bytes. -/
theorem C2_fixed_length_framing (n : Nat) (hn : 0 < n) (chunks : List (List Nat)) :
    ∃ frames rest,
      feedChunks (Limit.int (n : Int)) chunks [] = some (Except.ok (frames, rest)) ∧
      frames.length = chunks.flatten.length / n ∧
      (∀ f ∈ frames, f.length = n) ∧
      frames.flatten ++ rest = chunks.flatten ∧
      rest.length = chunks.flatten.length % n := by
  refine ⟨(extractFixed n chunks.flatten).1, (extractFixed n chunks.flatten).2, ?_, ?_, ?_, ?_, ?_⟩
  · rw [feedChunks_int n hn chunks [] (by simpa using hn)]
    simp
  · have hjoin := extractFixed_flatten n hn chunks.flatten
    have hframes := extractFixed_frames_length n hn chunks.flatten
    have hrest := extractFixed_rest_lt n hn chunks.flatten
    have hflat := flatten_length_of_uniform n _ hframes
    have hlen : chunks.flatten.length =
        n * (extractFixed n chunks.flatten).1.length +
          (extractFixed n chunks.flatten).2.length := by
      have := congrArg List.length hjoin
      simp only [List.length_append, hflat] at this
      omega
    rw [hlen, Nat.add_comm, Nat.add_mul_div_left _ _ hn,
        Nat.div_eq_of_lt hrest, Nat.zero_add]
  · exact extractFixed_frames_length n hn chunks.flatten
  · exact extractFixed_flatten n hn chunks.flatten
  · have hjoin := extractFixed_flatten n hn chunks.flatten
    have hframes := extractFixed_frames_length n hn chunks.flatten
    have hrest := extractFixed_rest_lt n hn chunks.flatten
    have hflat := flatten_length_of_uniform n _ hframes
    have hlen : chunks.flatten.length =
        n * (extractFixed n chunks.flatten).1.length +
          (extractFixed n chunks.flatten).2.length := by
      have := congrArg List.length hjoin
      simp only [List.length_append, hflat] at this
      omega
    rw [hlen, Nat.add_comm, Nat.add_mul_mod_self_left,
        Nat.mod_eq_of_lt hrest]

/-- Witness for C2 at the specification's concrete example 1:
limiter 5, input delivered as "ABC" then "DEFGHIJ". -/
theorem C2_witness :
    ∃ frames rest,
      feedChunks (Limit.int ((5 : Nat) : Int))
          [[65, 66, 67], [68, 69, 70, 71, 72, 73, 74]] [] =
        some (Except.ok (frames, rest)) ∧
      frames.length =
        ([[65, 66, 67], [68, 69, 70, 71, 72, 73, 74]] : List (List Nat)).flatten.length / 5 ∧
      (∀ f ∈ frames, f.length = 5) ∧
      frames.flatten ++ rest =
        ([[65, 66, 67], [68, 69, 70, 71, 72, 73, 74]] : List (List Nat)).flatten ∧
      rest.length =
        ([[65, 66, 67], [68, 69, 70, 71, 72, 73, 74]] : List (List Nat)).flatten.length % 5 :=
  C2_fixed_length_framing 5 (by omega) [[65, 66, 67], [68, 69, 70, 71, 72, 73, 74]]

/-! ## Delimiter extraction -/

theorem bfind_nil (d : List Nat) (hd : d ≠ []) : bfind d [] = Option.none := by
  simp only [bfind]
  rw [if_neg]
  intro hp
  exact hd (List.prefix_nil.mp (List.isPrefixOf_iff_prefix.mp hp))

theorem bfind_some_bound (d : List Nat) :
    ∀ s i, bfind d s = some i → i + d.length ≤ s.length := by
  intro s
  induction s with
  | nil =>
    intro i h
    simp only [bfind] at h
    split at h
    · rename_i hp
      have : d = [] := List.prefix_nil.mp (List.isPrefixOf_iff_prefix.mp hp)
      cases h
      simp [this]
    · cases h
  | cons x t ih =>
    intro i h
    simp only [bfind] at h
    split at h
    · rename_i hp
      cases h
      have := (List.isPrefixOf_iff_prefix.mp hp).length_le
      simpa using this
    · cases hb : bfind d t with
      | none => rw [hb] at h; cases h
      | some j =>
        rw [hb] at h
        simp only [Option.map_some'] at h
        cases h
        have := ih j hb
        simp only [List.length_cons]
        omega

theorem bfind_reconstruct (d : List Nat) :
    ∀ s i, bfind d s = some i → s.take i ++ d ++ s.drop (i + d.length) = s := by
  intro s
  induction s with
  | nil =>
    intro i h
    simp only [bfind] at h
    split at h
    · rename_i hp
      have hd : d = [] := List.prefix_nil.mp (List.isPrefixOf_iff_prefix.mp hp)
      cases h
      simp [hd]
    · cases h
  | cons x t ih =>
    intro i h
    simp only [bfind] at h
    split at h
    · rename_i hp
      cases h
      obtain ⟨u, hu⟩ := List.isPrefixOf_iff_prefix.mp hp
      simp only [List.take_zero, List.nil_append, Nat.zero_add]
      rw [← hu, List.drop_left]
    · cases hb : bfind d t with
      | none => rw [hb] at h; cases h
      | some j =>
        rw [hb] at h
        simp only [Option.map_some'] at h
        cases h
        have := ih j hb
        show (x :: t).take (j + 1) ++ d ++ (x :: t).drop (j + 1 + d.length) = x :: t
        rw [show j + 1 + d.length = (j + d.length) + 1 by omega]
        simp only [List.take_succ_cons, List.drop_succ_cons, List.cons_append]
        rw [List.append_assoc] at this ⊢
        rw [this]

theorem bfind_append_some (d : List Nat) :
    ∀ l m i, bfind d l = some i → bfind d (l ++ m) = some i := by
  intro l
  induction l with
  | nil =>
    intro m i h
    simp only [bfind] at h
    split at h
    · rename_i hp
      have hd : d = [] := List.prefix_nil.mp (List.isPrefixOf_iff_prefix.mp hp)
      cases h
      subst hd
      cases m with
      | nil => simp [bfind]
      | cons y u =>
        simp only [List.nil_append, bfind]
        rw [if_pos (by simp [List.isPrefixOf_iff_prefix])]
    · cases h
  | cons x t ih =>
    intro m i h
    simp only [bfind] at h
    split at h
    · rename_i hp
      cases h
      have hpm : d.isPrefixOf (x :: (t ++ m)) := by
        rw [List.isPrefixOf_iff_prefix] at hp ⊢
        exact hp.trans (List.prefix_append (x :: t) m)
      simp only [List.cons_append, bfind, List.append_eq]
      rw [if_pos hpm]
    · rename_i hp
      cases hb : bfind d t with
      | none => rw [hb] at h; cases h
      | some j =>
        rw [hb] at h
        simp only [Option.map_some'] at h
        cases h
        have hnp : ¬ d.isPrefixOf (x :: (t ++ m)) := by
          intro hcon
          apply hp
          rw [List.isPrefixOf_iff_prefix] at hcon ⊢
          have hlen : d.length ≤ (x :: t).length := by
            have := bfind_some_bound d t j hb
            simp only [List.length_cons]
            omega
          exact List.prefix_of_prefix_length_le hcon (List.prefix_append (x :: t) m) hlen
        simp only [List.cons_append, bfind, List.append_eq]
        rw [if_neg hnp, ih m j hb]
        simp

theorem bfind_take_none (d : List Nat) (hd : d ≠ []) :
    ∀ s i, bfind d s = some i → bfind d (s.take i) = Option.none := by
  intro s
  induction s with
  | nil =>
    intro i h
    simp only [bfind] at h
    split at h
    · rename_i hp
      exact absurd (List.prefix_nil.mp (List.isPrefixOf_iff_prefix.mp hp)) hd
    · cases h
  | cons x t ih =>
    intro i h
    simp only [bfind] at h
    split at h
    · cases h
      simpa using bfind_nil d hd
    · rename_i hp
      cases hb : bfind d t with
      | none => rw [hb] at h; cases h
      | some j =>
        rw [hb] at h
        simp only [Option.map_some'] at h
        cases h
        simp only [List.take_succ_cons, bfind]
        have hnp : ¬ d.isPrefixOf (x :: t.take j) := by
          intro hcon
          apply hp
          rw [List.isPrefixOf_iff_prefix] at hcon ⊢
          have hpre : x :: t.take j <+: x :: t := by
            rw [List.prefix_iff_eq_take]
            simp [List.take_take]
          exact hcon.trans hpre
        rw [if_neg hnp, ih j hb]
        rfl

/-- Independent left-to-right scan counting non-overlapping occurrences
of `d` (the counting convention of Python's `bytes.count`):
at each position, if `d` starts here, count it and resume after it,
otherwise advance one byte. -/
def countOccNO (d : List Nat) : List Nat → Nat
  | [] => 0
  | x :: t =>
    if h : d ≠ [] ∧ d.isPrefixOf (x :: t) then
      countOccNO d ((x :: t).drop d.length) + 1
    else countOccNO d t
termination_by s => s.length
decreasing_by
  · simp only [List.length_drop, List.length_cons]
    have h1 : 0 < d.length := List.length_pos.mpr h.1
    omega
  · simp

theorem countOccNO_eq_bfind (d : List Nat) (hd : d ≠ []) :
    ∀ s, countOccNO d s =
      match bfind d s with
      | Option.none => 0
      | some i => countOccNO d (s.drop (i + d.length)) + 1 := by
  intro s
  induction s with
  | nil =>
    rw [bfind_nil d hd]
    simp [countOccNO]
  | cons x t ih =>
    by_cases hp : d.isPrefixOf (x :: t)
    · have hb : bfind d (x :: t) = some 0 := by
        simp only [bfind]; rw [if_pos hp]
      rw [hb]
      rw [countOccNO]
      rw [dif_pos (And.intro hd hp)]
      simp
    · have hb : bfind d (x :: t) = (bfind d t).map (fun i => i + 1) := by
        simp only [bfind]; rw [if_neg hp]
      rw [countOccNO, dif_neg (by simp [hp]), ih, hb]
      cases hbt : bfind d t with
      | none => rfl
      | some j =>
        simp only [Option.map_some']
        rw [show j + 1 + d.length = (j + d.length) + 1 by omega]
        rw [List.drop_succ_cons]

/-- Total description of what the `Limit.bytes d` branch of the
extraction loop computes for non-empty `d`: repeatedly find the first
occurrence of `d`, emit the bytes before it, and resume after the
delimiter.  Shown below to agree with `onReceiveLoop` whenever enough
fuel is supplied. -/
def extractDelim (d : List Nat) (buf : List Nat) : List (List Nat) × List Nat :=
  match hfind : bfind d buf with
  | Option.none => ([], buf)
  | some i =>
    if hd : d = [] then ([], buf)
    else
      let r := extractDelim d (buf.drop (i + d.length))
      (buf.take i :: r.1, r.2)
termination_by buf.length
decreasing_by
  simp only [List.length_drop]
  have hb := bfind_some_bound d buf i hfind
  have h1 : 0 < d.length := List.length_pos.mpr hd
  omega

theorem extractDelim_of_none (d buf : List Nat) (h : bfind d buf = Option.none) :
    extractDelim d buf = ([], buf) := by
  rw [extractDelim.eq_def, h]

theorem extractDelim_of_some (d buf : List Nat) (i : Nat) (hd : d ≠ [])
    (h : bfind d buf = some i) :
    extractDelim d buf =
      (buf.take i :: (extractDelim d (buf.drop (i + d.length))).1,
        (extractDelim d (buf.drop (i + d.length))).2) := by
  rw [extractDelim.eq_def, h]
  simp only [dif_neg hd]

theorem extractDelim_reconstruct (d : List Nat) (hd : d ≠ []) :
    ∀ buf : List Nat,
      ((extractDelim d buf).1.map (fun f => f ++ d)).flatten ++ (extractDelim d buf).2 = buf := by
  suffices H : ∀ len, ∀ buf : List Nat, buf.length = len →
      ((extractDelim d buf).1.map (fun f => f ++ d)).flatten ++ (extractDelim d buf).2 = buf by
    exact fun buf => H buf.length buf rfl
  intro len
  induction len using Nat.strong_induction_on with
  | _ len ih =>
    intro buf hl
    cases hb : bfind d buf with
    | none => rw [extractDelim_of_none d buf hb]; simp
    | some i =>
      have hbound := bfind_some_bound d buf i hb
      have hdpos : 0 < d.length := List.length_pos.mpr hd
      have hdrop : (buf.drop (i + d.length)).length < len := by
        simp only [List.length_drop]; omega
      rw [extractDelim_of_some d buf i hd hb]
      have hih := ih (buf.drop (i + d.length)).length (by omega) (buf.drop (i + d.length)) rfl
      simp only [List.map_cons, List.flatten_cons]
      rw [List.append_assoc, List.append_assoc, hih, ← List.append_assoc]
      exact bfind_reconstruct d buf i hb

theorem extractDelim_count (d : List Nat) (hd : d ≠ []) :
    ∀ buf : List Nat, (extractDelim d buf).1.length = countOccNO d buf := by
  suffices H : ∀ len, ∀ buf : List Nat, buf.length = len →
      (extractDelim d buf).1.length = countOccNO d buf by
    exact fun buf => H buf.length buf rfl
  intro len
  induction len using Nat.strong_induction_on with
  | _ len ih =>
    intro buf hl
    rw [countOccNO_eq_bfind d hd buf]
    cases hb : bfind d buf with
    | none => rw [extractDelim_of_none d buf hb]; rfl
    | some i =>
      have hbound := bfind_some_bound d buf i hb
      have hdpos : 0 < d.length := List.length_pos.mpr hd
      have hdrop : (buf.drop (i + d.length)).length < len := by
        simp only [List.length_drop]; omega
      rw [extractDelim_of_some d buf i hd hb]
      simp only [List.length_cons]
      rw [ih (buf.drop (i + d.length)).length (by omega) (buf.drop (i + d.length)) rfl]

theorem extractDelim_rest_none (d : List Nat) (hd : d ≠ []) :
    ∀ buf : List Nat, bfind d (extractDelim d buf).2 = Option.none := by
  suffices H : ∀ len, ∀ buf : List Nat, buf.length = len →
      bfind d (extractDelim d buf).2 = Option.none by
    exact fun buf => H buf.length buf rfl
  intro len
  induction len using Nat.strong_induction_on with
  | _ len ih =>
    intro buf hl
    cases hb : bfind d buf with
    | none => rw [extractDelim_of_none d buf hb]; exact hb
    | some i =>
      have hbound := bfind_some_bound d buf i hb
      have hdpos : 0 < d.length := List.length_pos.mpr hd
      have hdrop : (buf.drop (i + d.length)).length < len := by
        simp only [List.length_drop]; omega
      rw [extractDelim_of_some d buf i hd hb]
      exact ih (buf.drop (i + d.length)).length (by omega) (buf.drop (i + d.length)) rfl

theorem extractDelim_frames_none (d : List Nat) (hd : d ≠ []) :
    ∀ buf : List Nat, ∀ f ∈ (extractDelim d buf).1, bfind d f = Option.none := by
  suffices H : ∀ len, ∀ buf : List Nat, buf.length = len →
      ∀ f ∈ (extractDelim d buf).1, bfind d f = Option.none by
    exact fun buf => H buf.length buf rfl
  intro len
  induction len using Nat.strong_induction_on with
  | _ len ih =>
    intro buf hl f hf
    cases hb : bfind d buf with
    | none => rw [extractDelim_of_none d buf hb] at hf; simp at hf
    | some i =>
      have hbound := bfind_some_bound d buf i hb
      have hdpos : 0 < d.length := List.length_pos.mpr hd
      have hdrop : (buf.drop (i + d.length)).length < len := by
        simp only [List.length_drop]; omega
      rw [extractDelim_of_some d buf i hd hb] at hf
      rcases List.mem_cons.mp hf with hf | hf
      · subst hf; exact bfind_take_none d hd buf i hb
      · exact ih (buf.drop (i + d.length)).length (by omega) (buf.drop (i + d.length)) rfl f hf

theorem extractDelim_append (d : List Nat) (hd : d ≠ []) :
    ∀ l m : List Nat,
      extractDelim d (l ++ m) =
        ((extractDelim d l).1 ++ (extractDelim d ((extractDelim d l).2 ++ m)).1,
          (extractDelim d ((extractDelim d l).2 ++ m)).2) := by
  suffices H : ∀ len, ∀ l : List Nat, l.length = len → ∀ m : List Nat,
      extractDelim d (l ++ m) =
        ((extractDelim d l).1 ++ (extractDelim d ((extractDelim d l).2 ++ m)).1,
          (extractDelim d ((extractDelim d l).2 ++ m)).2) by
    exact fun l => H l.length l rfl
  intro len
  induction len using Nat.strong_induction_on with
  | _ len ih =>
    intro l hl m
    cases hb : bfind d l with
    | none => rw [extractDelim_of_none d l hb]; simp
    | some i =>
      have hbound := bfind_some_bound d l i hb
      have hdpos : 0 < d.length := List.length_pos.mpr hd
      have hbm : bfind d (l ++ m) = some i := bfind_append_some d l m i hb
      have htake : (l ++ m).take i = l.take i := by
        rw [List.take_append_eq_append_take, Nat.sub_eq_zero_of_le (by omega)]
        simp
      have hdropapp : (l ++ m).drop (i + d.length) = l.drop (i + d.length) ++ m := by
        rw [List.drop_append_eq_append_drop, Nat.sub_eq_zero_of_le (by omega)]
        simp
      rw [extractDelim_of_some d (l ++ m) i hd hbm, extractDelim_of_some d l i hd hb,
          htake, hdropapp]
      have hdrop : (l.drop (i + d.length)).length < len := by
        simp only [List.length_drop]; omega
      rw [ih (l.drop (i + d.length)).length (by omega) (l.drop (i + d.length)) rfl m]
      simp

/-- With fuel exceeding the buffer length, the extraction loop for a
non-empty delimiter terminates and computes `extractDelim`. -/
theorem onReceiveLoop_bytes (d : List Nat) (hd : d ≠ []) :
    ∀ fuel buf, buf.length < fuel →
      onReceiveLoop (Limit.bytes d) fuel buf =
        some (Except.ok (extractDelim d buf)) := by
  intro fuel
  induction fuel with
  | zero => intro buf h; omega
  | succ fuel ih =>
    intro buf h
    by_cases hbuf : buf = []
    · subst hbuf
      rw [extractDelim_of_none d [] (bfind_nil d hd)]
      simp [onReceiveLoop]
    · simp only [onReceiveLoop, if_neg hbuf]
      cases hb : bfind d buf with
      | none => rw [extractDelim_of_none d buf hb]
      | some i =>
        have hbound := bfind_some_bound d buf i hb
        have hdpos : 0 < d.length := List.length_pos.mpr hd
        have hdrop : (buf.drop (i + d.length)).length < fuel := by
          simp only [List.length_drop]
          have : buf ≠ [] := hbuf
          have : 0 < buf.length := List.length_pos.mpr hbuf
          omega
        have hrec := ih (buf.drop (i + d.length)) hdrop
        simp only [hrec]
        rw [extractDelim_of_some d buf i hd hb]

/-- Feeding chunks one at a time to a delimiter(d) protocol computes
exactly the batch extraction over the concatenated stream, provided the
starting buffer contains no occurrence of the delimiter. -/
theorem feedChunks_bytes (d : List Nat) (hd : d ≠ []) :
    ∀ (chunks : List (List Nat)) (buf : List Nat), bfind d buf = Option.none →
      feedChunks (Limit.bytes d) chunks buf =
        some (Except.ok (extractDelim d (buf ++ chunks.flatten))) := by
  intro chunks
  induction chunks with
  | nil =>
    intro buf hbuf
    rw [feedChunks]
    rw [show buf ++ ([] : List (List Nat)).flatten = buf by simp]
    rw [extractDelim_of_none d buf hbuf]
  | cons c rest ih =>
    intro buf hbuf
    rw [feedChunks]
    rw [show on_receive (Limit.bytes d) buf c ((buf ++ c).length + 1) =
          some (Except.ok (extractDelim d (buf ++ c))) from
        onReceiveLoop_bytes d hd _ _ (by omega)]
    have hrest := extractDelim_rest_none d hd (buf ++ c)
    have happ := extractDelim_append d hd (buf ++ c) rest.flatten
    rcases hE : extractDelim d (buf ++ c) with ⟨fs1, r1⟩
    rw [hE] at hrest happ
    simp only
    rw [ih r1 hrest]
    rw [show buf ++ (c :: rest).flatten = (buf ++ c) ++ rest.flatten by simp]
    rw [happ]

/-- C3: for every non-empty delimiter d, feeding a byte stream to a
delimiter(d) protocol in arbitrary chunks (in particular chunks that
split an occurrence of d across two deliveries) produces exactly one
frame per occurrence of d in the whole stream (occurrences counted
left-to-right without overlap, as by Python's `bytes.count`); the frames,
each followed by the delimiter, concatenated with the final buffer,
reconstruct the stream in order; no frame contains the delimiter; and
the trailing bytes after the last delimiter remain in the buffer, which
contains no further occurrence of d. -/
theorem C3_delimiter_framing (d : List Nat) (hd : d ≠ []) (chunks : List (List Nat)) :
    ∃ frames rest,
      feedChunks (Limit.bytes d) chunks [] = some (Except.ok (frames, rest)) ∧
      frames.length = countOccNO d chunks.flatten ∧
      (frames.map (fun f => f ++ d)).flatten ++ rest = chunks.flatten ∧
      bfind d rest = Option.none ∧
      (∀ f ∈ frames, bfind d f = Option.none) := by
  refine ⟨(extractDelim d chunks.flatten).1, (extractDelim d chunks.flatten).2,
    ?_, ?_, ?_, ?_, ?_⟩
  · rw [feedChunks_bytes d hd chunks [] (bfind_nil d hd)]
    simp
  · exact extractDelim_count d hd chunks.flatten
  · exact extractDelim_reconstruct d hd chunks.flatten
  · exact extractDelim_rest_none d hd chunks.flatten
  · exact extractDelim_frames_none d hd chunks.flatten

/-- Witness for C3 at the specification's concrete example 2 with the
delimiter "\r\n" split across the two deliveries:
input "foo\r" then "\nbar\r\nbaz". -/
theorem C3_witness :
    ∃ frames rest,
      feedChunks (Limit.bytes [13, 10])
          [[102, 111, 111, 13], [10, 98, 97, 114, 13, 10, 98, 97, 122]] [] =
        some (Except.ok (frames, rest)) ∧
      frames.length =
        countOccNO [13, 10]
          ([[102, 111, 111, 13], [10, 98, 97, 114, 13, 10, 98, 97, 122]] : List (List Nat)).flatten ∧
      (frames.map (fun f => f ++ [13, 10])).flatten ++ rest =
        ([[102, 111, 111, 13], [10, 98, 97, 114, 13, 10, 98, 97, 122]] : List (List Nat)).flatten ∧
      bfind [13, 10] rest = Option.none ∧
      (∀ f ∈ frames, bfind [13, 10] f = Option.none) :=
  C3_delimiter_framing [13, 10] (by simp)
    [[102, 111, 111, 13], [10, 98, 97, 114, 13, 10, 98, 97, 122]]

/-! ## Termination of the extraction loop and the invalid-limiter branch -/

theorem onReceiveLoop_nil (limit : Limit) :
    ∀ fuel, 0 < fuel → onReceiveLoop limit fuel [] = some (Except.ok ([], [])) := by
  intro fuel hf
  cases fuel with
  | zero => omega
  | succ f => simp [onReceiveLoop]

/-- With fuel exceeding the buffer length, the extraction loop for the
deliver-all limiter terminates: a non-empty buffer is delivered as one
frame and cleared. -/
theorem onReceiveLoop_deliver_all :
    ∀ fuel buf, buf.length < fuel →
      onReceiveLoop Limit.none fuel buf =
        some (Except.ok (if buf = [] then ([], []) else ([buf], []))) := by
  intro fuel buf h
  cases fuel with
  | zero => omega
  | succ f =>
    by_cases hb : buf = []
    · subst hb; simp [onReceiveLoop]
    · have hlen : 0 < buf.length := List.length_pos.mpr hb
      simp only [onReceiveLoop, if_neg hb]
      rw [onReceiveLoop_nil Limit.none f (by omega)]

theorem onReceiveLoop_int_zero : ∀ fuel, onReceiveLoop (Limit.int 0) fuel [97] = Option.none := by
  intro fuel
  induction fuel with
  | zero => rfl
  | succ f ih =>
    simp only [onReceiveLoop]
    rw [if_neg (by simp : ¬([97] : List Nat) = [])]
    rw [if_neg (by decide : ¬(([97] : List Nat).length : Int) < 0)]
    rw [show pydrop 0 [97] = [97] by simp [pydrop]]
    rw [ih]

theorem onReceiveLoop_bytes_nil : ∀ fuel, onReceiveLoop (Limit.bytes []) fuel [97] = Option.none := by
  intro fuel
  induction fuel with
  | zero => rfl
  | succ f ih =>
    simp only [onReceiveLoop]
    rw [if_neg (by simp : ¬([97] : List Nat) = [])]
    rw [show bfind [] [97] = some 0 by simp [bfind]]
    simp only [List.length_nil, Nat.add_zero, List.drop_zero]
    rw [ih]

/-- C10: for every valid limiter (deliver-all, fixed-length with N > 0,
delimiter with a non-empty byte string), `on_receive` terminates on every
delivered view and every prior buffer content — fuel one more than the
combined buffer length always suffices, and the loop completes without
error.  With an invalid progress-free limiter (fixed-length 0 or an empty
delimiter) the loop never finishes whatever fuel it is given. -/
theorem C10_on_receive_terminates :
    (∀ limit, ValidLimit limit → ∀ buffer view : List Nat,
      ∃ r, on_receive limit buffer view ((buffer ++ view).length + 1) =
        some (Except.ok r)) ∧
    (∀ fuel, on_receive (Limit.int 0) [] [97] fuel = Option.none) ∧
    (∀ fuel, on_receive (Limit.bytes []) [] [97] fuel = Option.none) := by
  refine ⟨?_, ?_, ?_⟩
  · intro limit hv buffer view
    match limit with
    | Limit.none =>
      exact ⟨_, onReceiveLoop_deliver_all _ _ (by omega)⟩
    | Limit.int n =>
      have hn : 0 < n := hv
      have hcast : n = ((n.toNat : Nat) : Int) := by omega
      refine ⟨extractFixed n.toNat (buffer ++ view), ?_⟩
      rw [show Limit.int n = Limit.int ((n.toNat : Nat) : Int) by rw [← hcast]]
      exact onReceiveLoop_int n.toNat (by omega) _ _ (by omega)
    | Limit.bytes d =>
      exact ⟨extractDelim d (buffer ++ view), onReceiveLoop_bytes d hv _ _ (by omega)⟩
  · intro fuel
    show onReceiveLoop (Limit.int 0) fuel ([] ++ [97]) = Option.none
    rw [List.nil_append]
    exact onReceiveLoop_int_zero fuel
  · intro fuel
    show onReceiveLoop (Limit.bytes []) fuel ([] ++ [97]) = Option.none
    rw [List.nil_append]
    exact onReceiveLoop_bytes_nil fuel

/-- Witness for C10: a fixed-length(5) limiter finishes on a concrete
two-byte delivery. -/
theorem C10_witness :
    ∃ r, on_receive (Limit.int 5) [] [97, 98] 3 = some (Except.ok r) :=
  C10_on_receive_terminates.1 (Limit.int 5) (by decide) [] [97, 98]

/-- C8 counterexample: with an unsupported limiter, configuration (the
protocol constructor) succeeds — it performs no limiter validation — and
the `TypeError` surfaces only at runtime, when `on_receive` processes
received data.  This refutes the claim that an invalid limiter
configuration fails immediately at configuration time rather than as a
runtime error while processing received data. -/
theorem C8_counterexample :
    protocolInit Limit.other = Except.ok [] ∧
    on_receive Limit.other [] [97] 1 = some (Except.error "Unsupported limiter") :=
  ⟨rfl, rfl⟩

/-- C8 as amended: an unsupported limiter configuration is accepted at
configuration time (the constructor never fails); the `TypeError` is
raised at data-processing time, on the first `on_receive` call whose
accumulated buffer is non-empty, while an `on_receive` that leaves the
buffer empty does not raise. -/
theorem C8_invalid_limiter_runtime (buffer view : List Nat) (fuel : Nat)
    (hne : buffer ++ view ≠ []) (hf : 0 < fuel) :
    protocolInit Limit.other = Except.ok [] ∧
    on_receive Limit.other buffer view fuel = some (Except.error "Unsupported limiter") ∧
    on_receive Limit.other [] [] fuel = some (Except.ok ([], [])) := by
  refine ⟨rfl, ?_, ?_⟩
  · cases fuel with
    | zero => omega
    | succ f =>
      show onReceiveLoop Limit.other (f + 1) (buffer ++ view) = _
      simp only [onReceiveLoop, if_neg hne]
  · show onReceiveLoop Limit.other fuel ([] ++ []) = _
    rw [List.nil_append]
    exact onReceiveLoop_nil Limit.other fuel hf

/-- Witness for C8's amended statement at a concrete one-byte delivery. -/
theorem C8_witness :
    protocolInit Limit.other = Except.ok [] ∧
    on_receive Limit.other [] [97] 1 = some (Except.error "Unsupported limiter") ∧
    on_receive Limit.other [] [] 1 = some (Except.ok ([], [])) :=
  C8_invalid_limiter_runtime [] [97] 1 (by decide) (by decide)

/-! ## Reactor drain loop (`EventPollReceiver.run`, `transmission.py` lines 120-139) -/

/-- Outcome of one `socket.recv_into` call: either a successful read
returning the bytes read (empty list for a zero-byte EOF read), or a
raised `socket.error` with the given `errno`. -/
inductive ReadOutcome where
  | ok (chunk : List Nat)
  | err (errno : Nat)
deriving DecidableEq

/-- Result of the per-wakeup drain loop: `ended` when the
`while receiving:` condition became false (normal exit), `fatal` when an
unhandled `socket.error` was re-raised out of the loop, `outOfEvents`
when the supplied outcome script was exhausted while the loop was still
going to issue another read. -/
inductive DrainOutcome where
  | ended (delivered : List (List Nat)) (received : Nat)
  | fatal (errno : Nat) (delivered : List (List Nat)) (received : Nat)
  | outOfEvents (delivered : List (List Nat)) (received : Nat)
deriving DecidableEq

/-- Faithful translation of the inner drain loop of
`EventPollReceiver.run` (`transmission.py` lines 121-137): starting from
`received = 0`, `receiving = -1`, repeatedly consume the next read
outcome while `receiving` is non-zero.  A successful non-empty read is
delivered and counted; a zero-byte read sets `receiving = 0`; errno 9
sets `receiving = 0`; errno 11 executes `pass`, leaving `receiving` at
its previous (non-zero) value so the loop reads again; any other errno is
re-raised. -/
def drain : List ReadOutcome → List (List Nat) → Nat → DrainOutcome
  | [], acc, received => DrainOutcome.outOfEvents acc received
  | ReadOutcome.ok c :: rest, acc, received =>
    if c = [] then DrainOutcome.ended acc received
    else drain rest (acc ++ [c]) (received + c.length)
  | ReadOutcome.err e :: rest, acc, received =>
    if e = 9 then DrainOutcome.ended acc received
    else if e = 11 then drain rest acc received
    else DrainOutcome.fatal e acc received

/-- C1: the claim says errno 11 (EAGAIN, "would block") ends the drain
loop for the wakeup, "interrupted" (EINTR, errno 4) is retried, and any
other errno is fatal.  Evaluating the drain loop shows the code disagrees
at each concrete point: errno 11 does not end the loop (the `pass` leaves
`receiving` non-zero, so the loop immediately issues another read), a
read after an errno-11 read is still consumed and delivered, errno 9
(EBADF) is what ends the loop, and errno 4 (EINTR) is re-raised as
fatal rather than retried. -/
theorem C1_drain_errno_eval :
    drain [ReadOutcome.err 11] [] 0 = DrainOutcome.outOfEvents [] 0 ∧
    drain [ReadOutcome.err 11, ReadOutcome.ok [65], ReadOutcome.ok []] [] 0 =
      DrainOutcome.ended [[65]] 1 ∧
    drain [ReadOutcome.err 9] [] 0 = DrainOutcome.ended [] 0 ∧
    drain [ReadOutcome.err 4] [] 0 = DrainOutcome.fatal 4 [] 0 := by
  refine ⟨rfl, rfl, rfl, rfl⟩

/-! ## Single-use receiver worker loop
(`EventPollReceiver.run` with the single client installed by
`new_single_use_receiver`, `transmission.py` lines 112-141 and 227-239) -/

/-- Observable state of the single attached client: whether its entry is
still in the reactor's client map, how many times `on_finish` has been
invoked, and the views delivered to `on_receive` so far. -/
structure RxState where
  attached : Bool
  finishCount : Nat
  delivered : List (List Nat)
deriving DecidableEq

/-- Result of running the worker loop against a finite poll script. -/
inductive RunResult where
  | exited (s : RxState)
  | scriptEnd (s : RxState)
  | stuck (s : RxState)
  | fatalErr (errno : Nat) (s : RxState)
deriving DecidableEq

/-- Faithful translation of the `while self.clients:` worker loop of
`EventPollReceiver.run` for the single-use receiver: each poll cycle
either reports no event (`Option.none`, the 1-second timeout elapsing) or
one `EPOLLIN` event for the attached socket together with the script of
`recv_into` outcomes the drain loop will consume.  After the drain,
`if not received: on_finish()` — and the `on_finish` installed by
`new_single_use_receiver` detaches the socket, removing the client entry,
so the next `while self.clients:` check exits the loop. -/
def runLoop : List (Option (List ReadOutcome)) → RxState → RunResult
  | [], s => if s.attached then RunResult.scriptEnd s else RunResult.exited s
  | cycle :: rest, s =>
    if s.attached then
      match cycle with
      | Option.none => runLoop rest s
      | some script =>
        match drain script [] 0 with
        | DrainOutcome.ended acc received =>
          if received = 0 then
            runLoop rest { attached := false, finishCount := s.finishCount + 1,
                           delivered := s.delivered ++ acc }
          else runLoop rest { s with delivered := s.delivered ++ acc }
        | DrainOutcome.fatal e acc _ =>
          RunResult.fatalErr e { s with delivered := s.delivered ++ acc }
        | DrainOutcome.outOfEvents acc _ =>
          RunResult.stuck { s with delivered := s.delivered ++ acc }
    else RunResult.exited s

theorem runLoop_detached (cycles : List (Option (List ReadOutcome))) (s : RxState)
    (h : s.attached = false) : runLoop cycles s = RunResult.exited s := by
  cases cycles with
  | nil => simp [runLoop, h]
  | cons c rest => simp [runLoop, h]

/-- C5 counterexample: a wakeup in which two bytes are delivered and then
the read returns zero bytes (the peer's half-close arriving in the same
wakeup as data).  Because `on_finish` is only invoked when the whole
wakeup received nothing (`if not received:`), the finish callback is not
invoked, and the client entry stays in the map — refuting the claim that
this holds even when the zero-byte read occurs in the same wakeup after
non-empty reads delivered data. -/
theorem C5_counterexample :
    runLoop [some [ReadOutcome.ok [65, 66], ReadOutcome.ok []]]
        { attached := true, finishCount := 0, delivered := [] } =
      RunResult.scriptEnd { attached := true, finishCount := 0, delivered := [[65, 66]] } := by
  rfl

/-- C5 as amended: when the zero-byte read is the only outcome of its
wakeup — the whole drain ends with `received = 0` — the reactor invokes
`on_finish` exactly once, removes the client entry, and never reads from
that descriptor again: the worker exits at the next loop check, whatever
further poll cycles would have followed. -/
theorem C5_half_close (script : List ReadOutcome) (acc : List (List Nat))
    (rest : List (Option (List ReadOutcome))) (s : RxState)
    (ha : s.attached = true) (hdr : drain script [] 0 = DrainOutcome.ended acc 0) :
    runLoop (some script :: rest) s =
      RunResult.exited { attached := false, finishCount := s.finishCount + 1,
                         delivered := s.delivered ++ acc } := by
  simp only [runLoop, ha, if_true, hdr]
  exact runLoop_detached rest _ rfl

/-- Witness for C5's amended statement: a wakeup whose only read returns
zero bytes finishes the client exactly once and exits the loop. -/
theorem C5_witness :
    runLoop [some [ReadOutcome.ok []]]
        { attached := true, finishCount := 0, delivered := [] } =
      RunResult.exited { attached := false, finishCount := 1, delivered := [] } := by
  have h := C5_half_close [ReadOutcome.ok []] [] []
    { attached := true, finishCount := 0, delivered := [] } rfl rfl
  exact h

/-! ## Write-half shutdown (`Transmitter.finish`, `transmission.py` lines 46-55) -/

/-- Observable state of a `Transmitter`: its `finished` flag, the number
of `shutdown(SHUT_WR)` system calls attempted, and the number of shutdown
errors logged. -/
structure TxState where
  finished : Bool
  shutdownCalls : Nat
  errorsLogged : Nat
deriving DecidableEq

/-- Faithful translation of `Transmitter.finish`: if not yet finished,
attempt the write-half shutdown (`err` is the outcome of the system
call: `some errno` when it raises `socket.error`); a raised error is
logged, never propagated (the function is total); the `finally` block
sets the finished flag unconditionally. -/
def finish (err : Option Nat) (s : TxState) : TxState :=
  if s.finished then s
  else { finished := true, shutdownCalls := s.shutdownCalls + 1,
         errorsLogged := s.errorsLogged + (if err.isSome then 1 else 0) }

theorem finish_of_finished (err : Option Nat) (s : TxState) (h : s.finished = true) :
    finish err s = s := by
  simp [finish, h]

theorem foldl_finish_of_finished (errs : List (Option Nat)) :
    ∀ s : TxState, s.finished = true →
      errs.foldl (fun s e => finish e s) s = s := by
  induction errs with
  | nil => intro s _; rfl
  | cons e rest ih =>
    intro s h
    simp only [List.foldl_cons, finish_of_finished e s h]
    exact ih s h

/-- C7: across any non-empty sequence of `finish()` invocations, each
with its own shutdown-call outcome, exactly one shutdown is attempted
(by the first call only), the finished flag is set after the first call
whether or not the shutdown raised, and a raised error only increments
the log counter — it is never propagated (the model of `finish` is a
total function into states). -/
theorem C7_finish_once (e : Option Nat) (rest : List (Option Nat)) :
    ((e :: rest).foldl (fun s x => finish x s)
        { finished := false, shutdownCalls := 0, errorsLogged := 0 }).shutdownCalls = 1 ∧
    ((e :: rest).foldl (fun s x => finish x s)
        { finished := false, shutdownCalls := 0, errorsLogged := 0 }).finished = true ∧
    ((e :: rest).foldl (fun s x => finish x s)
        { finished := false, shutdownCalls := 0, errorsLogged := 0 }).errorsLogged =
      (if e.isSome then 1 else 0) := by
  have h1 : finish e { finished := false, shutdownCalls := 0, errorsLogged := 0 } =
      { finished := true, shutdownCalls := 1,
        errorsLogged := (if e.isSome then 1 else 0) } := by
    simp [finish]
  simp only [List.foldl_cons, h1]
  rw [foldl_finish_of_finished rest _ rfl]
  exact ⟨rfl, rfl, rfl⟩

/-! ## Reactor detach
(`Receiver.detach`, `transmission.py` lines 76-85;
`EventPollReceiver.detach`, lines 106-110) -/

/-- Observable reactor-side state of one socket: whether its entry is in
the client map, whether its descriptor is registered with the poller,
whether the socket object is open (`fileno() >= 0`), and how many
read-half shutdown attempts were made. -/
structure DetachState where
  inClients : Bool
  registered : Bool
  sockOpen : Bool
  shutRdCalls : Nat
deriving DecidableEq

/-- `Receiver.detach`: best-effort `shutdown(SHUT_RD)` with every
`socket.error` swallowed, then removal from the client map with
`KeyError` swallowed.  Total — this method never raises. -/
def receiver_detach (s : DetachState) : DetachState :=
  { s with shutRdCalls := s.shutRdCalls + 1, inClients := false }

/-- `EventPollReceiver.detach`: the base detach, then, when
`fd >= 0` (the socket object is not closed), `poll.unregister(fd)` —
which raises `OSError` (ENOENT, errno 2) if the descriptor is not
currently registered, and that exception is not caught here. -/
def epoll_detach (s : DetachState) : Except Nat DetachState :=
  let s1 := receiver_detach s
  if s1.sockOpen then
    if s1.registered then Except.ok { s1 with registered := false }
    else Except.error 2
  else Except.ok s1

/-- C9 counterexample: detaching an attached, registered, still-open
socket succeeds, but invoking `EventPollReceiver.detach` a second time on
the same (still open) socket raises the poller's unregistration error
instead of completing without error — refuting the claimed idempotence. -/
theorem C9_counterexample :
    epoll_detach { inClients := true, registered := true, sockOpen := true, shutRdCalls := 0 } =
      Except.ok { inClients := false, registered := false, sockOpen := true, shutRdCalls := 1 } ∧
    epoll_detach { inClients := false, registered := false, sockOpen := true, shutRdCalls := 1 } =
      Except.error 2 := ⟨rfl, rfl⟩

/-- C9 as amended: the base `Receiver.detach` is idempotent up to
re-attempting the swallowed read-half shutdown (the map state is
unchanged and no error can be raised); the first
`EventPollReceiver.detach` performs the best-effort shutdown, removes the
client entry and unregisters the descriptor; but a second
`EventPollReceiver.detach` while the socket is still open raises the
poller's unregistration error (ENOENT); only after the socket object is
closed (`fileno() < 0`) is `EventPollReceiver.detach` a harmless no-op. -/
theorem C9_detach (s : DetachState) (hr : s.registered = true) (ho : s.sockOpen = true) :
    receiver_detach (receiver_detach s) =
      { receiver_detach s with shutRdCalls := (receiver_detach s).shutRdCalls + 1 } ∧
    epoll_detach s =
      Except.ok { s with inClients := false, registered := false,
                         shutRdCalls := s.shutRdCalls + 1 } ∧
    epoll_detach { s with inClients := false, registered := false,
                          shutRdCalls := s.shutRdCalls + 1 } = Except.error 2 ∧
    (∀ t : DetachState, t.sockOpen = false →
      epoll_detach t =
        Except.ok { t with inClients := false, shutRdCalls := t.shutRdCalls + 1 }) := by
  refine ⟨?_, ?_, ?_, ?_⟩
  · simp [receiver_detach]
  · simp [epoll_detach, receiver_detach, hr, ho]
  · simp [epoll_detach, receiver_detach, ho]
  · intro t ht
    simp [epoll_detach, receiver_detach, ht]

/-- Witness for C9's amended statement at a concrete attached state. -/
theorem C9_witness :
    epoll_detach { inClients := true, registered := true, sockOpen := true, shutRdCalls := 0 } =
      Except.ok { inClients := false, registered := false, sockOpen := true, shutRdCalls := 1 } ∧
    epoll_detach { inClients := false, registered := false, sockOpen := true, shutRdCalls := 1 } =
      Except.error 2 :=
  ⟨(C9_detach { inClients := true, registered := true, sockOpen := true, shutRdCalls := 0 }
      rfl rfl).2.1,
    (C9_detach { inClients := true, registered := true, sockOpen := true, shutRdCalls := 0 }
      rfl rfl).2.2.1⟩

/-! ## Transceiver lifecycle
(`BaseTransceiver.stop_tx` / `stop_rx` / `close`,
`transmission/base.py` lines 120-170)

Modelled from the spec: the `@synchronized` decorator and its `locked()`
predicate come from `shortwave.concurrency`, which is not among the
sources; per the specification (§4.3) each of the three shutdown
operations carries its own reentrant-aware guard that lets a caller
distinguish "already executing on this call chain, skip" from "run
normally".  The guards are modelled by the `inTx`/`inRx`/`inClose` flags:
each operation sets its flag while its body runs, and each call site
checks the callee's flag first exactly as the Python code does
(`self.close.locked()`, `self.stop_tx.locked()`, `self.stop_rx.locked()`).
Everything else is translated from `transmission/base.py`. -/

/-- Observable lifecycle events, in order of occurrence: a write-half
shutdown attempt (with the errno it raised, if any), the `on_stop` hook,
a read-half shutdown attempt, and the release of the socket
(`socket.close()`). -/
inductive TEvent where
  | txStop (err : Option Nat)
  | onStop
  | rxStop (err : Option Nat)
  | sockClose
deriving DecidableEq

/-- Outcomes of the two shutdown system calls: `some errno` means the
call raises `socket.error` with that errno (the code swallows it either
way, logging unless it is EBADF/ENOTCONN). -/
structure SysCtx where
  wrErr : Option Nat
  rdErr : Option Nat
deriving DecidableEq

/-- State of a `BaseTransceiver`: presence of the transmitter and
receiver references and of the socket, the three per-operation guard
flags, and the trace of lifecycle events so far. -/
structure TState where
  transmitter : Bool
  receiver : Bool
  socket : Bool
  inTx : Bool
  inRx : Bool
  inClose : Bool
  events : List TEvent
deriving DecidableEq

mutual

/-- `BaseTransceiver.stop_tx` (`base.py` lines 126-138): if a transmitter
is present, attempt the write-half shutdown (error swallowed), then — in
the `finally` block — clear the transmitter reference and, if both halves
are now absent and `close` is not already executing, invoke `close` while
still holding this operation's guard. -/
def stop_tx (ctx : SysCtx) : Nat → TState → TState
  | 0, s => s
  | fuel + 1, s =>
    if s.inTx then s
    else if s.transmitter then
      let s1 : TState :=
        { s with inTx := true, transmitter := false,
                 events := s.events ++ [TEvent.txStop ctx.wrErr] }
      let s2 := if s1.receiver = false ∧ s1.inClose = false then close ctx fuel s1 else s1
      { s2 with inTx := false }
    else s

/-- `BaseTransceiver.stop_rx` (`base.py` lines 140-155): if a receiver is
present, run the `on_stop` hook, attempt the read-half shutdown (error
swallowed), then clear the receiver reference and, if both halves are now
absent and `close` is not already executing, invoke `close` while still
holding this operation's guard. -/
def stop_rx (ctx : SysCtx) : Nat → TState → TState
  | 0, s => s
  | fuel + 1, s =>
    if s.inRx then s
    else if s.receiver then
      let s1 : TState :=
        { s with inRx := true, receiver := false,
                 events := s.events ++ [TEvent.onStop, TEvent.rxStop ctx.rdErr] }
      let s2 := if s1.transmitter = false ∧ s1.inClose = false then close ctx fuel s1 else s1
      { s2 with inRx := false }
    else s

/-- `BaseTransceiver.close` (`base.py` lines 157-170): if the socket is
present, run whichever of `stop_tx` / `stop_rx` is not already executing,
release the socket (`socket.close()`, error swallowed) and clear the
socket reference. -/
def close (ctx : SysCtx) : Nat → TState → TState
  | 0, s => s
  | fuel + 1, s =>
    if s.inClose then s
    else if s.socket then
      let s1 : TState := { s with inClose := true }
      let s2 := if s1.inTx = false then stop_tx ctx fuel s1 else s1
      let s3 := if s2.inRx = false then stop_rx ctx fuel s2 else s2
      { s3 with socket := false, inClose := false,
                events := s3.events ++ [TEvent.sockClose] }
    else s

end

/-- Number of socket releases recorded in a trace. -/
def countSockClose (evs : List TEvent) : Nat :=
  (evs.filter (fun e => match e with | TEvent.sockClose => true | _ => false)).length

theorem close_computed (ctx : SysCtx) (s : TState)
    (h1 : s.inTx = false) (h2 : s.inRx = false) (h3 : s.inClose = false)
    (hs : s.socket = true) :
    close ctx 3 s =
      { transmitter := false, receiver := false, socket := false,
        inTx := false, inRx := false, inClose := false,
        events := s.events ++
          (if s.transmitter then [TEvent.txStop ctx.wrErr] else []) ++
          (if s.receiver then [TEvent.onStop, TEvent.rxStop ctx.rdErr] else []) ++
          [TEvent.sockClose] } := by
  obtain ⟨tx, rx, sock, itx, irx, icl, evs⟩ := s
  simp only at h1 h2 h3 hs
  subst h1 h2 h3 hs
  cases tx <;> cases rx <;>
    simp [close, stop_tx, stop_rx]

theorem close_of_no_socket (ctx : SysCtx) (s : TState) (h : s.socket = false) :
    ∀ fuel, close ctx fuel s = s := by
  intro fuel
  cases fuel with
  | zero => rfl
  | succ f =>
    simp only [close, h]
    split
    · rfl
    · rfl

theorem stop_tx_of_no_transmitter (ctx : SysCtx) (s : TState) (h : s.transmitter = false) :
    ∀ fuel, stop_tx ctx fuel s = s := by
  intro fuel
  cases fuel with
  | zero => rfl
  | succ f =>
    simp only [stop_tx, h]
    split
    · rfl
    · rfl

theorem stop_rx_of_no_receiver (ctx : SysCtx) (s : TState) (h : s.receiver = false) :
    ∀ fuel, stop_rx ctx fuel s = s := by
  intro fuel
  cases fuel with
  | zero => rfl
  | succ f =>
    simp only [stop_rx, h]
    split
    · rfl
    · rfl

/-- C4: from any quiescent open state (no shutdown operation currently
executing, socket present), after the first `close()` completes, every
further invocation of `close()`, `stop_tx()` or `stop_rx()` — with any
fuel — is a no-op returning the state unchanged (so it raises nothing
and has no effect); the socket is released exactly once; and the trace
shows the release happening strictly after the write-half and read-half
stop events, i.e. only once both halves have been stopped. -/
theorem C4_close_idempotent (ctx : SysCtx) (s : TState)
    (h1 : s.inTx = false) (h2 : s.inRx = false) (h3 : s.inClose = false)
    (hs : s.socket = true) :
    (∀ fuel, close ctx fuel (close ctx 3 s) = close ctx 3 s) ∧
    (∀ fuel, stop_tx ctx fuel (close ctx 3 s) = close ctx 3 s) ∧
    (∀ fuel, stop_rx ctx fuel (close ctx 3 s) = close ctx 3 s) ∧
    (close ctx 3 s).socket = false ∧
    countSockClose (close ctx 3 s).events = countSockClose s.events + 1 ∧
    (close ctx 3 s).events = s.events ++
      (if s.transmitter then [TEvent.txStop ctx.wrErr] else []) ++
      (if s.receiver then [TEvent.onStop, TEvent.rxStop ctx.rdErr] else []) ++
      [TEvent.sockClose] := by
  have hc := close_computed ctx s h1 h2 h3 hs
  refine ⟨?_, ?_, ?_, ?_, ?_, ?_⟩
  · intro fuel
    rw [hc]
    exact close_of_no_socket ctx _ rfl fuel
  · intro fuel
    rw [hc]
    exact stop_tx_of_no_transmitter ctx _ rfl fuel
  · intro fuel
    rw [hc]
    exact stop_rx_of_no_receiver ctx _ rfl fuel
  · rw [hc]
  · rw [hc]
    simp only [countSockClose, List.filter_append, List.length_append]
    cases s.transmitter <;> cases s.receiver <;> simp [List.filter]
  · rw [hc]

/-- Witness for C4 at a concrete fully-open transceiver with successful
shutdown calls: repeating `close` is the identity and the socket ends
released. -/
theorem C4_witness :
    (close (SysCtx.mk Option.none Option.none) 2
        (close (SysCtx.mk Option.none Option.none) 3
          { transmitter := true, receiver := true, socket := true,
            inTx := false, inRx := false, inClose := false, events := [] }) =
      close (SysCtx.mk Option.none Option.none) 3
        { transmitter := true, receiver := true, socket := true,
          inTx := false, inRx := false, inClose := false, events := [] }) ∧
    (close (SysCtx.mk Option.none Option.none) 3
        { transmitter := true, receiver := true, socket := true,
          inTx := false, inRx := false, inClose := false, events := [] }).socket = false :=
  ⟨(C4_close_idempotent (SysCtx.mk Option.none Option.none)
      { transmitter := true, receiver := true, socket := true,
        inTx := false, inRx := false, inClose := false, events := [] }
      rfl rfl rfl rfl).1 2,
    (C4_close_idempotent (SysCtx.mk Option.none Option.none)
      { transmitter := true, receiver := true, socket := true,
        inTx := false, inRx := false, inClose := false, events := [] }
      rfl rfl rfl rfl).2.2.2.1⟩

/-- C6: from any quiescent state with a live transmitter, `stop_tx()`
attempts the write-half shutdown and clears the transmitter reference
whether or not the shutdown raised (`ctx.wrErr` is arbitrary); if the
receiver reference is still present it stops there (no close), while if
it is absent — both halves gone, close not underway — it triggers
`close()`, releasing the socket; and a second `stop_tx()` afterwards,
with any fuel, has no effect. -/
theorem C6_stop_tx (ctx : SysCtx) (s : TState)
    (h1 : s.inTx = false) (h2 : s.inRx = false) (h3 : s.inClose = false)
    (ht : s.transmitter = true) (hs : s.socket = true) :
    (stop_tx ctx 3 s).transmitter = false ∧
    (∀ fuel, stop_tx ctx fuel (stop_tx ctx 3 s) = stop_tx ctx 3 s) ∧
    (s.receiver = true →
      stop_tx ctx 3 s =
        { s with transmitter := false,
                 events := s.events ++ [TEvent.txStop ctx.wrErr] }) ∧
    (s.receiver = false →
      stop_tx ctx 3 s =
        { s with transmitter := false, socket := false,
                 events := s.events ++ [TEvent.txStop ctx.wrErr, TEvent.sockClose] }) := by
  obtain ⟨tx, rx, sock, itx, irx, icl, evs⟩ := s
  simp only at h1 h2 h3 ht hs
  subst h1 h2 h3 ht hs
  cases rx
  · refine ⟨?_, ?_, ?_, ?_⟩
    · simp [stop_tx, close, stop_rx]
    · intro fuel
      have hval : stop_tx ctx 3
          { transmitter := true, receiver := false, socket := true,
            inTx := false, inRx := false, inClose := false, events := evs } =
          { transmitter := false, receiver := false, socket := false,
            inTx := false, inRx := false, inClose := false,
            events := evs ++ [TEvent.txStop ctx.wrErr, TEvent.sockClose] } := by
        simp [stop_tx, close, stop_rx]
      rw [hval]
      exact stop_tx_of_no_transmitter ctx _ rfl fuel
    · intro hcon; cases hcon
    · intro _
      simp [stop_tx, close, stop_rx]
  · refine ⟨?_, ?_, ?_, ?_⟩
    · simp [stop_tx]
    · intro fuel
      have hval : stop_tx ctx 3
          { transmitter := true, receiver := true, socket := true,
            inTx := false, inRx := false, inClose := false, events := evs } =
          { transmitter := false, receiver := true, socket := true,
            inTx := false, inRx := false, inClose := false,
            events := evs ++ [TEvent.txStop ctx.wrErr] } := by
        simp [stop_tx]
      rw [hval]
      exact stop_tx_of_no_transmitter ctx _ rfl fuel
    · intro _
      simp [stop_tx]
    · intro hcon; cases hcon

/-- Witness for C6 at a concrete open transceiver whose shutdown call
raises errno 107 (ENOTCONN): the transmitter reference is cleared
anyway, and with the receiver still present no close is triggered. -/
theorem C6_witness :
    (stop_tx (SysCtx.mk (some 107) Option.none) 3
        { transmitter := true, receiver := true, socket := true,
          inTx := false, inRx := false, inClose := false, events := [] }).transmitter = false ∧
    stop_tx (SysCtx.mk (some 107) Option.none) 3
        { transmitter := true, receiver := true, socket := true,
          inTx := false, inRx := false, inClose := false, events := [] } =
      { transmitter := false, receiver := true, socket := true,
        inTx := false, inRx := false, inClose := false,
        events := [] ++ [TEvent.txStop (some 107)] } :=
  ⟨(C6_stop_tx (SysCtx.mk (some 107) Option.none)
      { transmitter := true, receiver := true, socket := true,
        inTx := false, inRx := false, inClose := false, events := [] }
      rfl rfl rfl rfl rfl).1,
    (C6_stop_tx (SysCtx.mk (some 107) Option.none)
      { transmitter := true, receiver := true, socket := true,
        inTx := false, inRx := false, inClose := false, events := [] }
      rfl rfl rfl rfl rfl).2.2.1 rfl⟩

end Shortwave
